import Mathlib

/-!
Verification of `src/fix_cds_names.py` (Blueberry_Pangenome_TE_Analysis).

The program reads a CDS FASTA file, renames every record to a sequential
synthetic identifier `gene_<n>` (0-based input order), clears the free-text
description, writes the renamed records to a new FASTA file, and writes a
comma-separated conversion table mapping original identifiers to the new
ones.  This file gives a shallow embedding of that program and proves the
specified properties about it.

Modelling conventions:
* Text files are lists of lines; a line is a `List Char` that carries no
  newline character (Python file iteration yields lines with a trailing
  newline, which both the parser and our model strip or never inspect).
* A `FastaRecord` carries the identifier token (text after `>` up to the
  first whitespace), the free-text description (text after the identifier
  token, excluding the separating whitespace), and the sequence characters.
* `parseFasta` and `writeRecord` embed the behavior of Biopython
  `SeqIO.parse`/`SeqIO.write` for the "fasta" format, which the source
  delegates to: the parser skips text before the first `>` line, strips
  trailing whitespace from the title and each sequence line, joins the
  sequence lines and removes blanks and carriage returns; the writer emits
  the header line followed by the sequence wrapped at 60 characters per
  line.  Biopython stores the full title in its `description` attribute;
  our `description` field holds the part after the identifier token, and
  the writer rebuilds the title from the two fields, which agrees with
  Biopython whenever the fields come from one title.
* The file system is a function from path strings to optional file
  contents; `reformat_seq_iq` is embedded as a function from a file system
  to a file system paired with an optional error.
-/

/-- One FASTA entry: identifier token, free-text description, sequence
characters. -/
structure FastaRecord where
  id : List Char
  description : List Char
  seq : List Char
deriving DecidableEq

/-- The whitespace characters recognized by Python `str.rstrip()` and
`str.split(None)` on ASCII input: space, tab, newline, vertical tab,
form feed, carriage return. -/
def isPySpace (c : Char) : Bool :=
  c == ' ' || c == '\t' || c == '\n' || c == '\x0b' || c == '\x0c' || c == '\r'

/-- Python `line.rstrip()`: drop trailing whitespace. -/
def rstrip (l : List Char) : List Char :=
  (l.reverse.dropWhile isPySpace).reverse

/-- Build one record from a title line (text after `>`, already rstripped)
and the accumulated sequence lines (already rstripped), as Biopython
`SimpleFastaParser` plus `FastaIterator` do: the identifier is the first
whitespace-delimited word of the title, and the sequence is the
concatenation of the lines with blanks and carriage returns removed. -/
def mkRecord (title : List Char) (seqLines : List (List Char)) : FastaRecord :=
  { id := (title.dropWhile isPySpace).takeWhile (fun c => !isPySpace c)
    description :=
      (((title.dropWhile isPySpace).dropWhile (fun c => !isPySpace c)).dropWhile isPySpace)
    seq := seqLines.flatten.filter (fun c => !(c == ' ' || c == '\r')) }

/-- Main state machine of Biopython `SimpleFastaParser`: given the current
title and accumulated sequence lines, a line starting with `>` closes the
current record and opens the next one; any other line is rstripped and
appended to the sequence accumulator. -/
def parseRecords : List Char → List (List Char) → List (List Char) → List FastaRecord
  | title, acc, [] => [mkRecord title acc]
  | title, acc, l :: ls =>
    if l.head? = some '>' then
      mkRecord title acc :: parseRecords (rstrip l.tail) [] ls
    else
      parseRecords title (acc ++ [rstrip l]) ls

/-- Biopython `SimpleFastaParser` over a whole file: skip any text before
the first `>` line (an empty file yields no records), then run the record
state machine. -/
def parseFasta : List (List Char) → List FastaRecord
  | [] => []
  | l :: ls =>
    if l.head? = some '>' then parseRecords (rstrip l.tail) [] ls else parseFasta ls

/-- Sequence wrapping of the Biopython FASTA writer: `data[i:i+60]` for
`i in range(0, len(data), 60)`. -/
def chunks60 (l : List Char) : List (List Char) :=
  if h : l = [] then []
  else l.take 60 :: chunks60 (l.drop 60)
termination_by l.length
decreasing_by
  simp only [List.length_drop]
  have hl : 0 < l.length := List.length_pos.mpr h
  omega

/-- Biopython FASTA writer for one record: header line `>` + title, then
the sequence wrapped at 60 characters per line.  The title is the
identifier when the description is empty, and identifier, one space,
description otherwise. -/
def writeRecord (r : FastaRecord) : List (List Char) :=
  ('>' :: (if r.description = [] then r.id else r.id ++ ' ' :: r.description))
    :: chunks60 r.seq

/-- Lines of the output FASTA file for a list of records, in order. -/
def fastaLines (rs : List FastaRecord) : List (List Char) :=
  (rs.map writeRecord).flatten

/-- The new identifier `"gene_" + str(count)` from line 50 of the source. -/
def geneName (count : Nat) : List Char :=
  "gene_".data ++ (Nat.repr count).data

/-- Python dict assignment `pair_dict[k] = v` on an insertion-ordered
association list: an existing key keeps its position and gets the new
value; a new key is appended at the end. -/
def dictInsert (d : List (List Char × List Char)) (k v : List Char) :
    List (List Char × List Char) :=
  if d.any (fun p => p.1 == k) then
    d.map (fun p => if p.1 == k then (k, v) else p)
  else d ++ [(k, v)]

/-- State of the renaming loop: the conversion dict, the record counter,
and the records written to the output FASTA so far. -/
structure LoopState where
  pairs : List (List Char × List Char)
  count : Nat
  written : List FastaRecord
deriving DecidableEq

/-- The record written for input record `r` at counter value `c`: new
identifier `gene_<c>`, description cleared, sequence unchanged
(source lines 50-70). -/
def renameAt (c : Nat) (r : FastaRecord) : FastaRecord :=
  { id := geneName c, description := [], seq := r.seq }

/-- The loop body of `reformat_seq_iq` (source lines 49-70), one record at
a time: store the pair in the dict, rename, bump the counter, then fail
with the `ValueError` sanity check when the new identifier is longer than
13 characters; otherwise clear the description and write the record.  On
failure the state at the moment of the raise is returned: the failing
record has its pair stored and the counter bumped, but is not written. -/
def runLoop : LoopState → List FastaRecord → Except LoopState LoopState
  | st, [] => Except.ok st
  | st, r :: rs =>
    let newId := geneName st.count
    let st1 : LoopState :=
      { pairs := dictInsert st.pairs r.id newId
        count := st.count + 1
        written := st.written }
    if 13 < newId.length then Except.error st1
    else runLoop { st1 with written := st.written ++ [renameAt st.count r] } rs

/-- Loop state at entry: empty dict, counter 0, nothing written. -/
def startState : LoopState :=
  { pairs := [], count := 0, written := [] }

/-- The pure core of `reformat_seq_iq`: run the loop from the start state
over the parsed input records. -/
def reformatCore (recs : List FastaRecord) : Except LoopState LoopState :=
  runLoop startState recs

/-- Minimal quoting of the Python `csv` writer: a field containing the
delimiter, the quote character, or a line-terminator character is wrapped
in quotes with inner quotes doubled. -/
def csvField (s : List Char) : List Char :=
  if s.any (fun c => c == ',' || c == '"' || c == '\r' || c == '\n') then
    '"' :: (s.flatMap (fun c => if c == '"' then ['"', '"'] else [c])) ++ ['"']
  else s

/-- One row of the conversion table: fields joined by commas. -/
def csvRow (fields : List (List Char)) : List Char :=
  List.intercalate [','] (fields.map csvField)

/-- The header row `Original_Name,New_Name` (source line 74). -/
def headerRow : List Char :=
  csvRow ["Original_Name".data, "New_Name".data]

/-- Lines of the conversion table file: the header row, then one row per
dict entry in dict order (source lines 74-79). -/
def tableLines (pairs : List (List Char × List Char)) : List (List Char) :=
  headerRow :: pairs.map (fun p => csvRow [p.1, p.2])

/-- A file system: path strings to optional file contents (lists of
lines). -/
def FS : Type :=
  String → Option (List (List Char))

/-- Point update of a file system: write or delete one path. -/
def fsSet (fs : FS) (p : String) (c : Option (List (List Char))) : FS :=
  fun q => if q = p then c else fs q

/-- The two failure modes of a run: the `ValueError` sanity check on long
identifiers, and failure to open the input file. -/
inductive RunError where
  | lengthErr : RunError
  | readErr : RunError
deriving DecidableEq

/-- Output FASTA path `os.path.join(output_dir, genome_name + "_CDS_NewNames.fasta")`. -/
def newNamesPath (output_dir genome_name : String) : String :=
  output_dir ++ "/" ++ genome_name ++ "_CDS_NewNames.fasta"

/-- Conversion table path `os.path.join(output_dir, genome_name + "_CDS_Seq_ID_Conversion.txt")`. -/
def conversionPath (output_dir genome_name : String) : String :=
  output_dir ++ "/" ++ genome_name ++ "_CDS_Seq_ID_Conversion.txt"

/-- What ends up on disk when the streaming loop finishes: on the
`ValueError` the records written before the raise are the content of the
output FASTA and the conversion table is never written; on success the
output FASTA holds every renamed record and the conversion table is
written after the full pass (source lines 49-79). -/
def reformatOutputs (fs1 : FS) (new_fasta name_key : String)
    (res : Except LoopState LoopState) : FS × Option RunError :=
  match res with
  | Except.error st =>
      (fsSet fs1 new_fasta (some (fastaLines st.written)), some RunError.lengthErr)
  | Except.ok st =>
      (fsSet (fsSet fs1 new_fasta (some (fastaLines st.written))) name_key
        (some (tableLines st.pairs)), none)

/-- The whole of `reformat_seq_iq` (source lines 18-82) over the file
system model: derive the two output paths; delete both if present; open
the input, failing with an `IOError` if it is absent, before the output
file is created; then run the renaming loop and write the outputs. -/
def reformat_seq_iq (fs : FS) (input_fasta genome_name output_dir : String) :
    FS × Option RunError :=
  let new_fasta := newNamesPath output_dir genome_name
  let name_key := conversionPath output_dir genome_name
  let fs1 := fsSet (fsSet fs new_fasta none) name_key none
  match fs1 input_fasta with
  | none => (fs1, some RunError.readErr)
  | some inputLines =>
      reformatOutputs fs1 new_fasta name_key (runLoop startState (parseFasta inputLines))

/-- The records the loop appends to the output FASTA, starting at counter
value `c`: each input record renamed at its position. -/
def renameAll (c : Nat) : List FastaRecord → List FastaRecord
  | [] => []
  | r :: rs => renameAt c r :: renameAll (c + 1) rs

/-- The key-value pairs the loop stores, in processing order, starting at
counter value `c`. -/
def pairList (c : Nat) : List FastaRecord → List (List Char × List Char)
  | [] => []
  | r :: rs => (r.id, geneName c) :: pairList (c + 1) rs

/-- Folding `dictInsert` over a list of assignments, oldest first. -/
def insertList (d : List (List Char × List Char)) :
    List (List Char × List Char) → List (List Char × List Char)
  | [] => d
  | kv :: kvs => insertList (dictInsert d kv.1 kv.2) kvs

/-- A record the renaming loop writes: empty description, a nonempty
identifier free of whitespace and of `>`, and a sequence free of
whitespace and of `>`. -/
def cleanRecord (r : FastaRecord) : Prop :=
  r.description = [] ∧ r.id ≠ [] ∧ (∀ c ∈ r.id, isPySpace c = false ∧ c ≠ '>') ∧
    ∀ c ∈ r.seq, isPySpace c = false ∧ c ≠ '>'

/-- First-occurrence deduplication: keep each key at the position of its
first appearance. -/
def dedupFirst : List (List Char) → List (List Char)
  | [] => []
  | a :: l => a :: dedupFirst (l.filter (fun b => !(b == a)))
termination_by l => l.length
decreasing_by
  simp only [List.length_cons]
  exact Nat.lt_succ_of_le (List.length_filter_le _ _)

/-- 0-based index of the last occurrence of `k` (meaningful when `k` is a
member). -/
def lastIdx (k : List Char) : List (List Char) → Nat
  | [] => 0
  | _ :: l => if k ∈ l then lastIdx k l + 1 else 0

/-- The value paired with the last occurrence of key `k`. -/
def lastVal (k : List Char) (kvs : List (List Char × List Char)) : List Char :=
  kvs.foldl (fun acc kv => if kv.1 = k then kv.2 else acc) []

/-- A concrete two-record input used by the witnesses below. -/
def wRec1 : FastaRecord :=
  { id := "seqA".data, description := "desc1".data, seq := "ACGT".data }

def wRec2 : FastaRecord :=
  { id := "seqB".data, description := "desc2".data, seq := "TTTT".data }

def wRecs : List FastaRecord :=
  [wRec1, wRec2]

/-- The final loop state for `wRecs`. -/
def wStOk : LoopState :=
  { pairs := [("seqA".data, geneName 0), ("seqB".data, geneName 1)]
    count := 2
    written := [renameAt 0 wRec1, renameAt 1 wRec2] }

/-- A file system with no files at all. -/
def wFsNone : FS :=
  fun _ => none

/-- A file system holding an empty input file and stale junk everywhere
else, including at the output paths. -/
def wFsA : FS :=
  fun p => if p = "in.fasta" then some [] else some [['x']]

/-- A file system holding only the same empty input file. -/
def wFsB : FS :=
  fun p => if p = "in.fasta" then some [] else none

/-! ### Decimal representation: digits of `Nat.repr` -/

/-- The characters produced by `Nat.toDigitsCore` in base 10, with enough
fuel: the decimal digits of `n`, most significant first, prepended to the
accumulator. -/
theorem toDigitsCore_ten_eq (f : Nat) :
    ∀ (n : Nat) (l : List Char), n < f →
      Nat.toDigitsCore 10 f n l =
        (if n = 0 then ['0'] else ((Nat.digits 10 n).map Nat.digitChar).reverse) ++ l := by
  induction f with
  | zero => intro n l h; omega
  | succ f ih =>
    intro n l h
    simp only [Nat.toDigitsCore]
    by_cases h0 : n / 10 = 0
    · have hn10 : n < 10 := by omega
      simp only [h0, if_true]
      by_cases hn : n = 0
      · subst hn; simp [show Nat.digitChar 0 = '0' from rfl]
      · have hd : Nat.digits 10 n = [n % 10] := by
          rw [Nat.digits_def' (by norm_num : (1:Nat) < 10) (Nat.pos_of_ne_zero hn), h0]
          simp
        rw [hd]
        simp [hn, Nat.mod_eq_of_lt hn10]
    · have hn : n ≠ 0 := by omega
      have hlt : n / 10 < f := by omega
      simp only [h0, if_false]
      rw [ih (n / 10) (Nat.digitChar (n % 10) :: l) hlt]
      have hd : Nat.digits 10 n = n % 10 :: Nat.digits 10 (n / 10) :=
        Nat.digits_def' (by norm_num : (1:Nat) < 10) (Nat.pos_of_ne_zero hn)
      rw [hd]
      simp [h0, hn, List.append_assoc]

/-- The characters of `Nat.repr n`: the decimal digits of `n`, most
significant first. -/
theorem repr_data_eq (n : Nat) :
    (Nat.repr n).data =
      if n = 0 then ['0'] else ((Nat.digits 10 n).map Nat.digitChar).reverse := by
  show (Nat.toDigits 10 n).asString.data = _
  rw [show ∀ l : List Char, l.asString.data = l from fun _ => rfl]
  rw [Nat.toDigits, toDigitsCore_ten_eq (n + 1) n [] (Nat.lt_succ_self n)]
  simp

/-- The length of the decimal representation of `n` is `log 10 n + 1`. -/
theorem repr_length_eq (n : Nat) : (Nat.repr n).length = Nat.log 10 n + 1 := by
  show (Nat.repr n).data.length = _
  rw [repr_data_eq]
  by_cases hn : n = 0
  · simp [hn]
  · simp only [hn, if_false, List.length_reverse, List.length_map]
    rw [Nat.digits_len 10 n (by norm_num) hn]

/-- Length of a generated identifier: five characters of `gene_` plus the
decimal digits of the counter. -/
theorem geneName_length (n : Nat) :
    (geneName n).length = 5 + (Nat.repr n).length := by
  rw [geneName, List.length_append]
  have h5 : "gene_".data.length = 5 := by decide
  rw [h5]
  rfl

/-- The sanity-check bound: `gene_<n>` fits in 13 characters exactly when
`n < 10 ^ 8`. -/
theorem geneName_length_le_iff (n : Nat) :
    (geneName n).length ≤ 13 ↔ n < 10 ^ 8 := by
  rw [geneName_length, repr_length_eq]
  by_cases hn : n = 0
  · subst hn; norm_num
  · have hiff := Nat.lt_pow_iff_log_lt (b := 10) (by norm_num) hn (x := 8)
    constructor
    · intro h
      exact hiff.mpr (by omega)
    · intro h
      have := hiff.mp h
      omega

/-- The sanity check fires exactly when the counter has reached `10 ^ 8`. -/
theorem geneName_length_gt_iff (n : Nat) :
    13 < (geneName n).length ↔ 10 ^ 8 ≤ n := by
  rw [← Nat.not_le, geneName_length_le_iff]
  omega

/-- `Nat.digitChar` is injective below 10. -/
theorem digitChar_inj : ∀ a, a < 10 → ∀ b, b < 10 →
    Nat.digitChar a = Nat.digitChar b → a = b := by decide

/-- Mapping `Nat.digitChar` over lists of digits is injective. -/
theorem map_digitChar_inj : ∀ (l1 l2 : List Nat), (∀ d ∈ l1, d < 10) →
    (∀ d ∈ l2, d < 10) → l1.map Nat.digitChar = l2.map Nat.digitChar → l1 = l2 := by
  intro l1
  induction l1 with
  | nil => intro l2 _ _ h; cases l2 <;> simp_all
  | cons a l ih =>
    intro l2 h1 h2 h
    cases l2 with
    | nil => simp_all
    | cons b m =>
      simp only [List.map_cons, List.cons.injEq] at h
      have ha : a = b :=
        digitChar_inj a (h1 a (by simp)) b (h2 b (by simp)) h.1
      have hl : l = m :=
        ih m (fun d hd => h1 d (by simp [hd])) (fun d hd => h2 d (by simp [hd])) h.2
      rw [ha, hl]

/-- The decimal representation is injective on the characters. -/
theorem repr_data_inj {a b : Nat} (h : (Nat.repr a).data = (Nat.repr b).data) :
    a = b := by
  rw [repr_data_eq, repr_data_eq] at h
  by_cases ha : a = 0 <;> by_cases hb : b = 0
  · omega
  · exfalso
    simp only [ha, if_true, hb, if_false] at h
    have h2 : (Nat.digits 10 b).map Nat.digitChar = ['0'] := by
      have := congrArg List.reverse h
      simpa using this.symm
    have h3 : Nat.digits 10 b = [0] := by
      rcases hd : Nat.digits 10 b with _ | ⟨d, ds⟩
      · rw [hd] at h2; simp at h2
      · rw [hd] at h2
        simp only [List.map_cons, List.cons.injEq] at h2
        have hd10 : d < 10 :=
          Nat.digits_lt_base (by norm_num) (by rw [hd]; simp)
        have : d = 0 := digitChar_inj d hd10 0 (by norm_num) h2.1
        have hds : ds.map Nat.digitChar = [] := h2.2
        simp only [List.map_eq_nil_iff] at hds
        rw [this, hds]
    have hb0 : b = 0 := by
      have := Nat.ofDigits_digits 10 b
      rw [h3] at this
      simpa [Nat.ofDigits] using this.symm
    exact hb hb0
  · exfalso
    simp only [ha, if_false, hb, if_true] at h
    have h2 : (Nat.digits 10 a).map Nat.digitChar = ['0'] := by
      have := congrArg List.reverse h
      simpa using this
    have h3 : Nat.digits 10 a = [0] := by
      rcases hd : Nat.digits 10 a with _ | ⟨d, ds⟩
      · rw [hd] at h2; simp at h2
      · rw [hd] at h2
        simp only [List.map_cons, List.cons.injEq] at h2
        have hd10 : d < 10 :=
          Nat.digits_lt_base (by norm_num) (by rw [hd]; simp)
        have : d = 0 := digitChar_inj d hd10 0 (by norm_num) h2.1
        have hds : ds.map Nat.digitChar = [] := h2.2
        simp only [List.map_eq_nil_iff] at hds
        rw [this, hds]
    have ha0 : a = 0 := by
      have := Nat.ofDigits_digits 10 a
      rw [h3] at this
      simpa [Nat.ofDigits] using this.symm
    exact ha ha0
  · simp only [ha, if_false, hb, if_false] at h
    have h2 : (Nat.digits 10 a).map Nat.digitChar = (Nat.digits 10 b).map Nat.digitChar :=
      List.reverse_injective h
    have h3 : Nat.digits 10 a = Nat.digits 10 b :=
      map_digitChar_inj _ _ (fun d hd => Nat.digits_lt_base (by norm_num) hd)
        (fun d hd => Nat.digits_lt_base (by norm_num) hd) h2
    exact Nat.digits.injective 10 h3

/-- Generated identifiers are pairwise distinct: `geneName` is injective. -/
theorem geneName_inj : Function.Injective geneName := by
  intro a b h
  exact repr_data_inj (List.append_cancel_left h)

/-! ### Characterization of the renaming loop -/

theorem renameAll_length (c : Nat) (rs : List FastaRecord) :
    (renameAll c rs).length = rs.length := by
  induction rs generalizing c with
  | nil => rfl
  | cons r rs ih => simp [renameAll, ih]

theorem renameAll_map_id (c : Nat) (rs : List FastaRecord) :
    (renameAll c rs).map (fun r => r.id) =
      (List.range rs.length).map (fun i => geneName (c + i)) := by
  induction rs generalizing c with
  | nil => rfl
  | cons r rs ih =>
    simp only [renameAll, List.map_cons, renameAt, List.length_cons, List.range_succ_eq_map,
      List.map_map, ih (c + 1)]
    congr 1
    apply List.map_congr_left
    intro i _
    simp only [Function.comp]
    congr 1
    omega

theorem renameAll_map_seq (c : Nat) (rs : List FastaRecord) :
    (renameAll c rs).map (fun r => r.seq) = rs.map (fun r => r.seq) := by
  induction rs generalizing c with
  | nil => rfl
  | cons r rs ih => simp [renameAll, renameAt, ih]

theorem renameAll_description (c : Nat) (rs : List FastaRecord) :
    ∀ r ∈ renameAll c rs, r.description = [] := by
  induction rs generalizing c with
  | nil => intro r hr; cases hr
  | cons x xs ih =>
    intro r hr
    rcases List.mem_cons.mp hr with h1 | h1
    · rw [h1]; rfl
    · exact ih (c + 1) r h1

/-- Splitting a run of the loop at a list append. -/
theorem runLoop_append (xs ys : List FastaRecord) (st : LoopState) :
    runLoop st (xs ++ ys) =
      match runLoop st xs with
      | Except.ok st1 => runLoop st1 ys
      | Except.error e => Except.error e := by
  induction xs generalizing st with
  | nil => rfl
  | cons x xs ih =>
    simp only [List.cons_append, runLoop]
    by_cases h : 13 < (geneName st.count).length
    · simp [h]
    · simp only [h, if_false]
      exact ih _

/-- A run in which every generated identifier respects the bound succeeds,
and the final state is fully determined: the dict holds every assignment in
order, the counter advanced once per record, and every record was renamed
and written. -/
theorem runLoop_ok (rs : List FastaRecord) (st : LoopState)
    (h : ∀ i, i < rs.length → (geneName (st.count + i)).length ≤ 13) :
    runLoop st rs =
      Except.ok
        { pairs := insertList st.pairs (pairList st.count rs)
          count := st.count + rs.length
          written := st.written ++ renameAll st.count rs } := by
  induction rs generalizing st with
  | nil => simp [runLoop, pairList, insertList, renameAll]
  | cons r rs ih =>
    have h0 : (geneName st.count).length ≤ 13 := by
      have h00 := h 0 (by simp)
      simpa using h00
    simp only [runLoop]
    rw [if_neg (Nat.not_lt.mpr h0)]
    rw [ih { pairs := dictInsert st.pairs r.id (geneName st.count)
             count := st.count + 1
             written := st.written ++ [renameAt st.count r] }
        (by intro i hi
            have h2 := h (i + 1) (by simpa using Nat.succ_lt_succ hi)
            simpa [Nat.add_assoc, Nat.add_comm 1 i] using h2)]
    simp only [pairList, insertList, renameAll, List.length_cons, Except.ok.injEq,
      LoopState.mk.injEq]
    refine ⟨trivial, by omega, ?_⟩
    simp [List.append_assoc]

/-- Success of the whole pure core under the record-count ceiling, with the
final state spelled out. -/
theorem reformatCore_ok (recs : List FastaRecord) (h : recs.length ≤ 10 ^ 8) :
    reformatCore recs =
      Except.ok
        { pairs := insertList [] (pairList 0 recs)
          count := recs.length
          written := renameAll 0 recs } := by
  have := runLoop_ok recs startState
    (by intro i hi
        rw [show startState.count = 0 from rfl, Nat.zero_add]
        exact (geneName_length_le_iff i).mpr (by omega))
  simpa [reformatCore, startState] using this

theorem pairList_append (c : Nat) (xs ys : List FastaRecord) :
    pairList c (xs ++ ys) = pairList c xs ++ pairList (c + xs.length) ys := by
  induction xs generalizing c with
  | nil => simp [pairList]
  | cons x xs ih =>
    simp only [List.cons_append, List.append_eq, pairList, ih (c + 1), List.length_cons]
    rw [show c + 1 + xs.length = c + (xs.length + 1) from by omega]

theorem insertList_append (d : List (List Char × List Char))
    (as bs : List (List Char × List Char)) :
    insertList d (as ++ bs) = insertList (insertList d as) bs := by
  induction as generalizing d with
  | nil => rfl
  | cons a as ih =>
    simp only [List.cons_append, insertList]
    exact ih _

/-- A run over more than `10 ^ 8` records fails: the loop processes the
first `10 ^ 8` records normally, then the identifier of the record at
0-based index `10 ^ 8` is 14 characters long and the sanity check raises.
The final state has the failing record in the dict, the counter past it,
and exactly the records before it written. -/
theorem reformatCore_long (recs : List FastaRecord) (h : 10 ^ 8 < recs.length) :
    reformatCore recs =
      Except.error
        { pairs := insertList [] (pairList 0 (recs.take (10 ^ 8 + 1)))
          count := 10 ^ 8 + 1
          written := renameAll 0 (recs.take (10 ^ 8)) } := by
  have htk : (recs.take (10 ^ 8)).length = 10 ^ 8 := by
    rw [List.length_take]
    omega
  have hsplit := List.take_append_drop (10 ^ 8) recs
  rcases hd : recs.drop (10 ^ 8) with _ | ⟨r, rest⟩
  · have : recs.length ≤ 10 ^ 8 := by
      have h2 := congrArg List.length hd
      rw [List.length_drop] at h2
      simp at h2
      omega
    omega
  · have hA : runLoop startState (recs.take (10 ^ 8)) =
        Except.ok
          { pairs := insertList [] (pairList 0 (recs.take (10 ^ 8)))
            count := 10 ^ 8
            written := renameAll 0 (recs.take (10 ^ 8)) } := by
      have h2 := runLoop_ok (recs.take (10 ^ 8)) startState
        (by intro i hi
            rw [show startState.count = 0 from rfl, Nat.zero_add]
            rw [htk] at hi
            exact (geneName_length_le_iff i).mpr hi)
      rw [h2]
      simp only [startState, htk, Nat.zero_add, List.nil_append]
    have hbad : 13 < (geneName (10 ^ 8)).length :=
      (geneName_length_gt_iff (10 ^ 8)).mpr (Nat.le_refl _)
    calc reformatCore recs
        = runLoop startState (recs.take (10 ^ 8) ++ recs.drop (10 ^ 8)) := by
          rw [hsplit]; rfl
      _ = _ := by
          rw [runLoop_append, hA, hd]
          simp only [runLoop]
          rw [if_pos hbad]
          have htake1 : recs.take (10 ^ 8 + 1) = recs.take (10 ^ 8) ++ [r] := by
            rw [List.take_add, hd]
            rfl
          rw [htake1, pairList_append, insertList_append, htk]
          rfl

/-- An error result pins down the input length and the failure state. -/
theorem reformatCore_error_elim (recs : List FastaRecord) (st : LoopState)
    (h : reformatCore recs = Except.error st) :
    10 ^ 8 < recs.length ∧
      st =
        { pairs := insertList [] (pairList 0 (recs.take (10 ^ 8 + 1)))
          count := 10 ^ 8 + 1
          written := renameAll 0 (recs.take (10 ^ 8)) } := by
  have hlen : 10 ^ 8 < recs.length := by
    by_contra hc
    rw [reformatCore_ok recs (by omega)] at h
    cases h
  refine ⟨hlen, ?_⟩
  rw [reformatCore_long recs hlen] at h
  injection h with h1
  exact h1.symm

/-! ### Round trip: parsing the written FASTA -/

theorem chunks60_nil : chunks60 [] = [] := by
  rw [chunks60]
  rfl

theorem chunks60_ne {l : List Char} (h : l ≠ []) :
    chunks60 l = l.take 60 :: chunks60 (l.drop 60) := by
  conv_lhs => rw [chunks60]
  simp [h]

theorem chunks60_flatten_aux :
    ∀ (n : Nat) (l : List Char), l.length ≤ n → (chunks60 l).flatten = l := by
  intro n
  induction n with
  | zero =>
    intro l h
    have hl : l = [] := List.eq_nil_of_length_eq_zero (Nat.le_zero.mp h)
    simp [hl, chunks60_nil]
  | succ n ih =>
    intro l h
    by_cases hl : l = []
    · simp [hl, chunks60_nil]
    · rw [chunks60_ne hl]
      have hlen : (l.drop 60).length ≤ n := by
        rw [List.length_drop]
        have : 0 < l.length := List.length_pos.mpr hl
        omega
      simp only [List.flatten_cons, ih (l.drop 60) hlen, List.take_append_drop]

/-- The sequence chunks of the FASTA writer concatenate back to the
sequence. -/
theorem chunks60_flatten (l : List Char) : (chunks60 l).flatten = l :=
  chunks60_flatten_aux l.length l (Nat.le_refl _)

theorem chunks60_mem_aux :
    ∀ (n : Nat) (l : List Char), l.length ≤ n →
      ∀ c ∈ chunks60 l, c ≠ [] ∧ ∀ x ∈ c, x ∈ l := by
  intro n
  induction n with
  | zero =>
    intro l h c hc
    have hl : l = [] := List.eq_nil_of_length_eq_zero (Nat.le_zero.mp h)
    rw [hl, chunks60_nil] at hc
    cases hc
  | succ n ih =>
    intro l h c hc
    by_cases hl : l = []
    · rw [hl, chunks60_nil] at hc
      cases hc
    · rw [chunks60_ne hl] at hc
      rcases List.mem_cons.mp hc with h1 | h1
      · subst h1
        constructor
        · rcases l with _ | ⟨a, t⟩
          · exact absurd rfl hl
          · simp [List.take_succ_cons]
        · intro x hx
          exact List.take_subset 60 l hx
      · have hlen : (l.drop 60).length ≤ n := by
          rw [List.length_drop]
          have : 0 < l.length := List.length_pos.mpr hl
          omega
        have h2 := ih (l.drop 60) hlen c h1
        exact ⟨h2.1, fun x hx => List.drop_subset 60 l (h2.2 x hx)⟩

/-- Every chunk is nonempty and made of characters of the sequence. -/
theorem chunks60_mem (l : List Char) :
    ∀ c ∈ chunks60 l, c ≠ [] ∧ ∀ x ∈ c, x ∈ l :=
  chunks60_mem_aux l.length l (Nat.le_refl _)

theorem dropWhile_isPySpace_eq (l : List Char)
    (h : ∀ c ∈ l, isPySpace c = false) : l.dropWhile isPySpace = l := by
  cases l with
  | nil => rfl
  | cons a t =>
    rw [List.dropWhile_cons, h a (by simp)]
    simp

theorem takeWhile_not_isPySpace_eq (l : List Char)
    (h : ∀ c ∈ l, isPySpace c = false) :
    l.takeWhile (fun c => !isPySpace c) = l := by
  induction l with
  | nil => rfl
  | cons a t ih =>
    rw [List.takeWhile_cons, h a (by simp)]
    simp only [Bool.not_false, if_true]
    rw [ih (fun c hc => h c (by simp [hc]))]

theorem dropWhile_not_isPySpace_all (l : List Char)
    (h : ∀ c ∈ l, isPySpace c = false) :
    l.dropWhile (fun c => !isPySpace c) = [] := by
  induction l with
  | nil => rfl
  | cons a t ih =>
    rw [List.dropWhile_cons, h a (by simp)]
    simp only [Bool.not_false, if_true]
    exact ih (fun c hc => h c (by simp [hc]))

/-- Dropping trailing whitespace does not change a line that has no
whitespace at all. -/
theorem rstrip_eq_self (l : List Char) (h : ∀ c ∈ l, isPySpace c = false) :
    rstrip l = l := by
  rw [rstrip, dropWhile_isPySpace_eq l.reverse (fun c hc => h c (List.mem_reverse.mp hc))]
  exact List.reverse_reverse l

theorem filter_clean_eq (l : List Char) (h : ∀ c ∈ l, isPySpace c = false) :
    l.filter (fun c => !(c == ' ' || c == '\r')) = l := by
  rw [List.filter_eq_self]
  intro c hc
  have h2 := h c hc
  simp only [isPySpace, Bool.or_eq_false_iff] at h2
  simp [h2.1.1.1.1.1, h2.2]

/-- Parsing the lines written for one clean record rebuilds the record. -/
theorem mkRecord_clean (r : FastaRecord) (h : cleanRecord r) :
    mkRecord r.id (chunks60 r.seq) = r := by
  obtain ⟨hd, hne, hid, hseq⟩ := h
  have hid1 : ∀ c ∈ r.id, isPySpace c = false := fun c hc => (hid c hc).1
  have hseq1 : ∀ c ∈ r.seq, isPySpace c = false := fun c hc => (hseq c hc).1
  rw [mkRecord]
  have e1 : (r.id.dropWhile isPySpace) = r.id := dropWhile_isPySpace_eq r.id hid1
  cases r with
  | mk i d s =>
    simp only at hd hne hid hseq hid1 hseq1 e1 ⊢
    rw [FastaRecord.mk.injEq]
    refine ⟨?_, ?_, ?_⟩
    · rw [e1, takeWhile_not_isPySpace_eq i hid1]
    · rw [e1, dropWhile_not_isPySpace_all i hid1]
      simp [hd]
    · rw [chunks60_flatten, filter_clean_eq s hseq1]

theorem parseRecords_chunks_aux :
    ∀ (n : Nat) (s : List Char), s.length ≤ n →
      (∀ c ∈ s, isPySpace c = false ∧ c ≠ '>') →
      ∀ (title : List Char) (acc rest : List (List Char)),
        parseRecords title acc (chunks60 s ++ rest) =
          parseRecords title (acc ++ chunks60 s) rest := by
  intro n
  induction n with
  | zero =>
    intro s h _ title acc rest
    have hs : s = [] := List.eq_nil_of_length_eq_zero (Nat.le_zero.mp h)
    simp [hs, chunks60_nil]
  | succ n ih =>
    intro s h hs title acc rest
    by_cases h0 : s = []
    · simp [h0, chunks60_nil]
    · rw [chunks60_ne h0]
      have hhead : (s.take 60).head? ≠ some '>' := by
        rcases s with _ | ⟨a, t⟩
        · exact absurd rfl h0
        · rw [List.take_succ_cons, List.head?_cons]
          intro hcontra
          have := (hs a (by simp)).2
          simp at hcontra
          exact this hcontra
      have hstrip : rstrip (s.take 60) = s.take 60 :=
        rstrip_eq_self _ (fun c hc => (hs c (List.take_subset 60 s hc)).1)
      have hlen : (s.drop 60).length ≤ n := by
        rw [List.length_drop]
        have : 0 < s.length := List.length_pos.mpr h0
        omega
      have hdropclean : ∀ c ∈ s.drop 60, isPySpace c = false ∧ c ≠ '>' :=
        fun c hc => hs c (List.drop_subset 60 s hc)
      simp only [List.cons_append, List.append_eq, parseRecords, if_neg hhead, hstrip]
      rw [ih (s.drop 60) hlen hdropclean title (acc ++ [s.take 60]) rest]
      rw [List.append_assoc]
      rfl

/-- Sequence lines of one record are consumed into the accumulator. -/
theorem parseRecords_chunks (s : List Char)
    (hs : ∀ c ∈ s, isPySpace c = false ∧ c ≠ '>')
    (title : List Char) (acc rest : List (List Char)) :
    parseRecords title acc (chunks60 s ++ rest) =
      parseRecords title (acc ++ chunks60 s) rest :=
  parseRecords_chunks_aux s.length s (Nat.le_refl _) hs title acc rest

/-- Running the record state machine over the written lines of clean
records closes the pending record and reconstructs every written record. -/
theorem parseRecords_fastaLines (outs : List FastaRecord)
    (h : ∀ r ∈ outs, cleanRecord r) :
    ∀ (title : List Char) (acc : List (List Char)),
      parseRecords title acc (fastaLines outs) = mkRecord title acc :: outs := by
  induction outs with
  | nil =>
    intro title acc
    rfl
  | cons r rs ih =>
    intro title acc
    have hr := h r (by simp)
    obtain ⟨hd, hne, hid, hseq⟩ := hr
    have hwrite : writeRecord r = ('>' :: r.id) :: chunks60 r.seq := by
      rw [writeRecord, if_pos hd]
    simp only [fastaLines, List.map_cons, List.flatten_cons, hwrite, List.cons_append]
    simp only [parseRecords, List.head?_cons, List.tail_cons, if_true, eq_self_iff_true]
    rw [rstrip_eq_self r.id (fun c hc => (hid c hc).1)]
    rw [show (chunks60 r.seq ++ (List.map writeRecord rs).flatten) =
          (chunks60 r.seq ++ fastaLines rs) from rfl]
    rw [parseRecords_chunks r.seq hseq r.id [] (fastaLines rs)]
    rw [List.nil_append]
    rw [ih (fun x hx => h x (by simp [hx])) r.id (chunks60 r.seq)]
    rw [mkRecord_clean r ⟨hd, hne, hid, hseq⟩]

/-- Round trip: parsing the FASTA file written for clean records yields
exactly those records. -/
theorem parseFasta_fastaLines (outs : List FastaRecord)
    (h : ∀ r ∈ outs, cleanRecord r) :
    parseFasta (fastaLines outs) = outs := by
  cases outs with
  | nil => rfl
  | cons r rs =>
    have hr := h r (by simp)
    obtain ⟨hd, hne, hid, hseq⟩ := hr
    have hwrite : writeRecord r = ('>' :: r.id) :: chunks60 r.seq := by
      rw [writeRecord, if_pos hd]
    simp only [fastaLines, List.map_cons, List.flatten_cons, hwrite, List.cons_append]
    simp only [parseFasta, List.head?_cons, List.tail_cons, if_true, eq_self_iff_true]
    rw [rstrip_eq_self r.id (fun c hc => (hid c hc).1)]
    rw [show (chunks60 r.seq ++ (List.map writeRecord rs).flatten) =
          (chunks60 r.seq ++ fastaLines rs) from rfl]
    rw [parseRecords_chunks r.seq hseq r.id [] (fastaLines rs)]
    rw [List.nil_append]
    rw [parseRecords_fastaLines rs (fun x hx => h x (by simp [hx])) r.id (chunks60 r.seq)]
    rw [mkRecord_clean r ⟨hd, hne, hid, hseq⟩]

/-! ### The records written by the loop are clean -/

theorem digitChar_clean : ∀ d, d < 10 →
    isPySpace (Nat.digitChar d) = false ∧ Nat.digitChar d ≠ '>' := by decide

theorem repr_chars_clean (n : Nat) :
    ∀ c ∈ (Nat.repr n).data, isPySpace c = false ∧ c ≠ '>' := by
  intro c hc
  rw [repr_data_eq] at hc
  by_cases hn : n = 0
  · rw [hn] at hc
    simp at hc
    subst hc
    decide
  · rw [if_neg hn] at hc
    rw [List.mem_reverse, List.mem_map] at hc
    obtain ⟨d, hd, hdc⟩ := hc
    subst hdc
    exact digitChar_clean d (Nat.digits_lt_base (by norm_num) hd)

theorem geneName_chars_clean (n : Nat) :
    geneName n ≠ [] ∧ ∀ c ∈ geneName n, isPySpace c = false ∧ c ≠ '>' := by
  constructor
  · intro hcontra
    have h2 := congrArg List.length hcontra
    rw [geneName_length] at h2
    simp at h2
  · intro c hc
    rw [geneName, List.mem_append] at hc
    rcases hc with hc | hc
    · revert hc
      revert c
      decide
    · exact repr_chars_clean n c hc

/-- Every record the loop writes is clean, provided the input sequences
contain no whitespace and no `>`. -/
theorem renameAll_clean (cnt : Nat) (rs : List FastaRecord)
    (hseq : ∀ r ∈ rs, ∀ c ∈ r.seq, isPySpace c = false ∧ c ≠ '>') :
    ∀ r ∈ renameAll cnt rs, cleanRecord r := by
  induction rs generalizing cnt with
  | nil => intro r hr; cases hr
  | cons x xs ih =>
    intro r hr
    rcases List.mem_cons.mp hr with h1 | h1
    · subst h1
      exact ⟨rfl, (geneName_chars_clean cnt).1, (geneName_chars_clean cnt).2,
        hseq x (by simp)⟩
    · exact ih (cnt + 1) (fun q hq c hc => hseq q (by simp [hq]) c hc) r h1

/-! ### Characterization of the conversion dict -/

theorem dictInsert_keys_mem (d : List (List Char × List Char)) (k v : List Char)
    (h : k ∈ d.map Prod.fst) :
    (dictInsert d k v).map Prod.fst = d.map Prod.fst := by
  have hany : d.any (fun p => p.1 == k) = true := by
    rw [List.any_eq_true]
    rw [List.mem_map] at h
    obtain ⟨p, hp, hpk⟩ := h
    exact ⟨p, hp, by simp [hpk]⟩
  rw [dictInsert, if_pos hany, List.map_map]
  apply List.map_congr_left
  intro p _
  simp only [Function.comp]
  by_cases hpk : p.1 = k
  · simp [hpk]
  · simp [hpk]

theorem dictInsert_keys_not_mem (d : List (List Char × List Char)) (k v : List Char)
    (h : k ∉ d.map Prod.fst) :
    (dictInsert d k v).map Prod.fst = d.map Prod.fst ++ [k] := by
  have hany : d.any (fun p => p.1 == k) = false := by
    rw [List.any_eq_false]
    intro p hp
    simp only [beq_iff_eq]
    intro hpk
    exact h (List.mem_map.mpr ⟨p, hp, hpk⟩)
  rw [dictInsert, if_neg (by rw [hany]; exact Bool.false_ne_true), List.map_append]
  rfl

theorem mem_dictInsert (d : List (List Char × List Char)) (k v : List Char)
    (p : List Char × List Char) (h : p ∈ dictInsert d k v) :
    (p ∈ d ∧ p.1 ≠ k) ∨ p = (k, v) := by
  rw [dictInsert] at h
  by_cases hany : d.any (fun q => q.1 == k) = true
  · rw [if_pos hany] at h
    rw [List.mem_map] at h
    obtain ⟨q, hq, hqp⟩ := h
    by_cases hqk : q.1 = k
    · right
      rw [← hqp]
      simp [hqk]
    · left
      rw [← hqp]
      simp only [beq_iff_eq, hqk, if_false]
      exact ⟨hq, hqk⟩
  · rw [if_neg hany] at h
    rcases List.mem_append.mp h with h1 | h1
    · left
      refine ⟨h1, ?_⟩
      intro hpk
      rw [List.any_eq_true] at hany
      exact hany ⟨p, h1, by simp [hpk]⟩
    · right
      simpa using h1

theorem dedupFirst_nil : dedupFirst [] = [] := by
  rw [dedupFirst]

theorem dedupFirst_cons (a : List Char) (l : List (List Char)) :
    dedupFirst (a :: l) = a :: dedupFirst (l.filter (fun b => !(b == a))) := by
  rw [dedupFirst]

theorem insertList_keys (kvs : List (List Char × List Char)) :
    ∀ d, (insertList d kvs).map Prod.fst =
      d.map Prod.fst ++
        dedupFirst
          ((kvs.map Prod.fst).filter (fun k => !(decide (k ∈ d.map Prod.fst)))) := by
  induction kvs with
  | nil => intro d; simp [insertList, dedupFirst_nil]
  | cons kv kvs ih =>
    intro d
    simp only [insertList, List.map_cons, List.filter_cons]
    by_cases hk : kv.1 ∈ d.map Prod.fst
    · rw [ih (dictInsert d kv.1 kv.2), dictInsert_keys_mem d kv.1 kv.2 hk]
      rw [show (!(decide (kv.1 ∈ d.map Prod.fst))) = false by simp [hk]]
      simp only [Bool.false_eq_true, if_false]
    · rw [ih (dictInsert d kv.1 kv.2), dictInsert_keys_not_mem d kv.1 kv.2 hk]
      rw [show (!(decide (kv.1 ∈ d.map Prod.fst))) = true by simp [hk]]
      simp only [if_true]
      rw [dedupFirst_cons]
      have hfil :
          (kvs.map Prod.fst).filter
              (fun k => !(decide (k ∈ d.map Prod.fst ++ [kv.1]))) =
            ((kvs.map Prod.fst).filter
                (fun k => !(decide (k ∈ d.map Prod.fst)))).filter
              (fun b => !(b == kv.1)) := by
        rw [List.filter_filter]
        apply List.filter_congr
        intro x _
        by_cases h1 : x ∈ d.map Prod.fst <;> by_cases h2 : x = kv.1 <;>
          simp [h1, h2]
      rw [hfil, List.append_assoc, List.singleton_append]

theorem insertList_nil_keys (kvs : List (List Char × List Char)) :
    (insertList [] kvs).map Prod.fst = dedupFirst (kvs.map Prod.fst) := by
  rw [insertList_keys kvs []]
  simp only [List.map_nil, List.nil_append]
  congr 1
  rw [List.filter_eq_self]
  intro a _
  simp

theorem pairList_keys (c : Nat) (rs : List FastaRecord) :
    (pairList c rs).map Prod.fst = rs.map (fun r => r.id) := by
  induction rs generalizing c with
  | nil => rfl
  | cons x xs ih => simp [pairList, ih (c + 1)]

theorem lastVal_foldl_not_mem (k : List Char) (kvs : List (List Char × List Char))
    (h : k ∉ kvs.map Prod.fst) :
    ∀ i, kvs.foldl (fun acc kv => if kv.1 = k then kv.2 else acc) i = i := by
  induction kvs with
  | nil => intro i; rfl
  | cons kv kvs ih =>
    intro i
    rw [List.foldl_cons]
    have hk : kv.1 ≠ k := by
      intro hcontra
      exact h (by simp [hcontra])
    rw [if_neg hk]
    exact ih (fun hc => h (by simp [hc])) i

theorem lastVal_foldl_mem (k : List Char) (kvs : List (List Char × List Char))
    (h : k ∈ kvs.map Prod.fst) :
    ∀ i j, kvs.foldl (fun acc kv => if kv.1 = k then kv.2 else acc) i =
      kvs.foldl (fun acc kv => if kv.1 = k then kv.2 else acc) j := by
  induction kvs with
  | nil => simp at h
  | cons kv kvs ih =>
    intro i j
    rw [List.foldl_cons, List.foldl_cons]
    by_cases hk : kv.1 = k
    · rw [if_pos hk, if_pos hk]
    · rw [if_neg hk, if_neg hk]
      have h2 : k ∈ kvs.map Prod.fst := by
        rcases List.mem_cons.mp (List.map_cons Prod.fst kv kvs ▸ h) with h3 | h3
        · exact absurd h3.symm hk
        · exact h3
      exact ih h2 i j

theorem insertList_val (kvs : List (List Char × List Char))
    (p : List Char × List Char) (hp : p ∈ insertList [] kvs) :
    p.2 = lastVal p.1 kvs := by
  induction kvs using List.reverseRecOn with
  | nil => cases hp
  | append_singleton kvs kv ih =>
    rw [insertList_append] at hp
    simp only [insertList] at hp
    rcases mem_dictInsert _ _ _ _ hp with ⟨h1, h2⟩ | h1
    · rw [lastVal, List.foldl_append, List.foldl_cons, List.foldl_nil]
      rw [if_neg (fun hc => h2 hc.symm)]
      exact ih h1
    · rw [h1]
      rw [lastVal, List.foldl_append, List.foldl_cons, List.foldl_nil]
      rw [if_pos rfl]

theorem lastVal_pairList (rs : List FastaRecord) :
    ∀ (c : Nat) (k : List Char), k ∈ rs.map (fun r => r.id) →
      lastVal k (pairList c rs) =
        geneName (c + lastIdx k (rs.map (fun r => r.id))) := by
  induction rs with
  | nil => intro c k hk; simp at hk
  | cons x xs ih =>
    intro c k hk
    simp only [List.map_cons, lastIdx]
    by_cases hmem : k ∈ xs.map (fun r => r.id)
    · rw [if_pos hmem]
      have hkeys : k ∈ (pairList (c + 1) xs).map Prod.fst := by
        rw [pairList_keys]; exact hmem
      rw [lastVal]
      rw [show pairList c (x :: xs) = (x.id, geneName c) :: pairList (c + 1) xs from rfl]
      rw [List.foldl_cons]
      rw [lastVal_foldl_mem k (pairList (c + 1) xs) hkeys _ []]
      rw [show (pairList (c + 1) xs).foldl
            (fun acc kv => if kv.1 = k then kv.2 else acc) [] =
          lastVal k (pairList (c + 1) xs) from rfl]
      rw [ih (c + 1) k hmem]
      congr 1
      omega
    · rw [if_neg hmem]
      have hxk : x.id = k := by
        rcases List.mem_cons.mp hk with h1 | h1
        · exact h1.symm
        · exact absurd h1 hmem
      have hkeys : k ∉ (pairList (c + 1) xs).map Prod.fst := by
        rw [pairList_keys]; exact hmem
      rw [lastVal]
      rw [show pairList c (x :: xs) = (x.id, geneName c) :: pairList (c + 1) xs from rfl]
      rw [List.foldl_cons, if_pos hxk]
      rw [lastVal_foldl_not_mem k (pairList (c + 1) xs) hkeys (geneName c)]
      rw [Nat.add_zero]

theorem dedupFirst_subset_aux :
    ∀ (n : Nat) (l : List (List Char)), l.length ≤ n →
      ∀ x ∈ dedupFirst l, x ∈ l := by
  intro n
  induction n with
  | zero =>
    intro l h x hx
    have hl : l = [] := List.eq_nil_of_length_eq_zero (Nat.le_zero.mp h)
    rw [hl, dedupFirst_nil] at hx
    cases hx
  | succ n ih =>
    intro l h x hx
    cases l with
    | nil => rw [dedupFirst_nil] at hx; cases hx
    | cons a t =>
      rw [dedupFirst_cons] at hx
      rcases List.mem_cons.mp hx with h1 | h1
      · simp [h1]
      · have hlen : (t.filter (fun b => !(b == a))).length ≤ n := by
          have := List.length_filter_le (fun b => !(b == a)) t
          simp only [List.length_cons] at h
          omega
        have h2 := ih _ hlen x h1
        exact List.mem_cons_of_mem a (List.mem_of_mem_filter h2)

/-- Deduplicated keys all come from the original list. -/
theorem dedupFirst_subset (l : List (List Char)) :
    ∀ x ∈ dedupFirst l, x ∈ l :=
  dedupFirst_subset_aux l.length l (Nat.le_refl _)

theorem dedupFirst_nodup_aux :
    ∀ (n : Nat) (l : List (List Char)), l.length ≤ n → (dedupFirst l).Nodup := by
  intro n
  induction n with
  | zero =>
    intro l h
    have hl : l = [] := List.eq_nil_of_length_eq_zero (Nat.le_zero.mp h)
    rw [hl, dedupFirst_nil]
    exact List.nodup_nil
  | succ n ih =>
    intro l h
    cases l with
    | nil => rw [dedupFirst_nil]; exact List.nodup_nil
    | cons a t =>
      rw [dedupFirst_cons]
      have hlen : (t.filter (fun b => !(b == a))).length ≤ n := by
        have := List.length_filter_le (fun b => !(b == a)) t
        simp only [List.length_cons] at h
        omega
      refine List.nodup_cons.mpr ⟨?_, ih _ hlen⟩
      intro hmem
      have h2 := dedupFirst_subset _ a hmem
      rw [List.mem_filter] at h2
      simp at h2

/-- Deduplicated keys are pairwise distinct. -/
theorem dedupFirst_nodup (l : List (List Char)) : (dedupFirst l).Nodup :=
  dedupFirst_nodup_aux l.length l (Nat.le_refl _)

/-! ### File-system lemmas -/

theorem fsSet_same (fs : FS) (p : String) (c : Option (List (List Char))) :
    fsSet fs p c p = c := by
  simp [fsSet]

theorem fsSet_other (fs : FS) (p : String) (c : Option (List (List Char)))
    (q : String) (h : q ≠ p) : fsSet fs p c q = fs q := by
  simp [fsSet, h]

/-- The two output paths are always distinct. -/
theorem paths_ne (od gn : String) : newNamesPath od gn ≠ conversionPath od gn := by
  intro h
  have hlen := congrArg String.length h
  simp only [newNamesPath, conversionPath, String.length_append,
    show ("_CDS_NewNames.fasta" : String).length = 19 from by decide,
    show ("_CDS_Seq_ID_Conversion.txt" : String).length = 26 from by decide] at hlen
  omega

theorem reformat_eval_some (fs : FS) (ip gn od : String) (lines : List (List Char))
    (h : fsSet (fsSet fs (newNamesPath od gn) none) (conversionPath od gn) none ip =
      some lines) :
    reformat_seq_iq fs ip gn od =
      reformatOutputs
        (fsSet (fsSet fs (newNamesPath od gn) none) (conversionPath od gn) none)
        (newNamesPath od gn) (conversionPath od gn)
        (runLoop startState (parseFasta lines)) := by
  simp only [reformat_seq_iq]
  rw [h]

theorem reformat_eval_none (fs : FS) (ip gn od : String)
    (h : fsSet (fsSet fs (newNamesPath od gn) none) (conversionPath od gn) none ip =
      none) :
    reformat_seq_iq fs ip gn od =
      (fsSet (fsSet fs (newNamesPath od gn) none) (conversionPath od gn) none,
        some RunError.readErr) := by
  simp only [reformat_seq_iq]
  rw [h]

theorem reformatOutputs_ok (fs1 : FS) (nf nk : String) (st : LoopState) :
    reformatOutputs fs1 nf nk (Except.ok st) =
      (fsSet (fsSet fs1 nf (some (fastaLines st.written))) nk
        (some (tableLines st.pairs)), none) :=
  rfl

theorem reformatOutputs_error (fs1 : FS) (nf nk : String) (st : LoopState) :
    reformatOutputs fs1 nf nk (Except.error st) =
      (fsSet fs1 nf (some (fastaLines st.written)), some RunError.lengthErr) :=
  rfl

/-- A successful pure core pins down the input length bound and the final
state. -/
theorem reformatCore_ok_elim (recs : List FastaRecord) (st : LoopState)
    (h : reformatCore recs = Except.ok st) :
    recs.length ≤ 10 ^ 8 ∧
      st = { pairs := insertList [] (pairList 0 recs)
             count := recs.length
             written := renameAll 0 recs } := by
  have hlen : recs.length ≤ 10 ^ 8 := by
    by_contra hc
    rw [reformatCore_long recs (by omega)] at h
    cases h
  refine ⟨hlen, ?_⟩
  rw [reformatCore_ok recs hlen] at h
  injection h with h1
  exact h1.symm

theorem range_map_shift (n : Nat) :
    (List.range n).map (fun i => geneName (0 + i)) = (List.range n).map geneName := by
  apply List.map_congr_left
  intro i _
  rw [Nat.zero_add]

/-! ### The claims -/

/-- C1: on every successful run, the new identifier of the record at
0-based input position `i` is `gene_<i>`, regardless of duplicate original
identifiers, and consequently all new identifiers in the output FASTA are
pairwise distinct. -/
theorem claim1_gene_ids (recs : List FastaRecord) (st : LoopState)
    (h : reformatCore recs = Except.ok st) :
    st.written.map (fun r => r.id) = (List.range recs.length).map geneName ∧
      (st.written.map (fun r => r.id)).Nodup := by
  obtain ⟨hlen, hst⟩ := reformatCore_ok_elim recs st h
  subst hst
  have hmap : (renameAll 0 recs).map (fun r => r.id) =
      (List.range recs.length).map geneName := by
    rw [renameAll_map_id 0 recs, range_map_shift]
  constructor
  · exact hmap
  · show ((renameAll 0 recs).map (fun r => r.id)).Nodup
    rw [hmap]
    exact (List.nodup_range recs.length).map geneName_inj

theorem claim1_witness :
    reformatCore wRecs = Except.ok wStOk ∧
      (wStOk.written.map (fun r => r.id) = (List.range wRecs.length).map geneName ∧
        (wStOk.written.map (fun r => r.id)).Nodup) :=
  ⟨rfl, claim1_gene_ids wRecs wStOk rfl⟩

/-- C2: on every successful run the conversion table is the header row
`Original_Name,New_Name` followed by one row per dict entry; the keys are
exactly the unique original identifiers in order of first occurrence, and
the value of each key is the name assigned to the last record carrying
that identifier. -/
theorem claim2_conversion_table (recs : List FastaRecord) (st : LoopState)
    (h : reformatCore recs = Except.ok st) :
    headerRow = "Original_Name,New_Name".data ∧
      tableLines st.pairs = headerRow :: st.pairs.map (fun p => csvRow [p.1, p.2]) ∧
      st.pairs.map Prod.fst = dedupFirst (recs.map (fun r => r.id)) ∧
      (st.pairs.map Prod.fst).Nodup ∧
      ∀ p ∈ st.pairs, p.2 = geneName (lastIdx p.1 (recs.map (fun r => r.id))) := by
  obtain ⟨hlen, hst⟩ := reformatCore_ok_elim recs st h
  subst hst
  have hkeys : (insertList [] (pairList 0 recs)).map Prod.fst =
      dedupFirst (recs.map (fun r => r.id)) := by
    rw [insertList_nil_keys, pairList_keys]
  refine ⟨by decide, rfl, hkeys, ?_, ?_⟩
  · show ((insertList [] (pairList 0 recs)).map Prod.fst).Nodup
    rw [hkeys]
    exact dedupFirst_nodup _
  · intro p hp
    have h1 := insertList_val (pairList 0 recs) p hp
    have hpk : p.1 ∈ recs.map (fun r => r.id) := by
      have h2 : p.1 ∈ (insertList [] (pairList 0 recs)).map Prod.fst :=
        List.mem_map.mpr ⟨p, hp, rfl⟩
      rw [hkeys] at h2
      exact dedupFirst_subset _ p.1 h2
    rw [h1, lastVal_pairList recs 0 p.1 hpk, Nat.zero_add]

theorem claim2_witness :
    reformatCore wRecs = Except.ok wStOk ∧
      (headerRow = "Original_Name,New_Name".data ∧
        tableLines wStOk.pairs =
          headerRow :: wStOk.pairs.map (fun p => csvRow [p.1, p.2]) ∧
        wStOk.pairs.map Prod.fst = dedupFirst (wRecs.map (fun r => r.id)) ∧
        (wStOk.pairs.map Prod.fst).Nodup ∧
        ∀ p ∈ wStOk.pairs, p.2 = geneName (lastIdx p.1 (wRecs.map (fun r => r.id)))) :=
  ⟨rfl, claim2_conversion_table wRecs wStOk rfl⟩

/-- C3 counterexample: with the record counter at 9,000,000 the generated
identifier `gene_9000000` is 12 characters long, within the 13-character
bound, and the loop accepts the record without a `LengthError`; so the
failure does not occur once the counter reaches 9,000,000. -/
theorem claim3_counterexample :
    (geneName 9000000).length = 12 ∧
      runLoop { pairs := [], count := 9000000, written := [] } [wRec1] =
        Except.ok
          { pairs := [("seqA".data, geneName 9000000)]
            count := 9000001
            written := [renameAt 9000000 wRec1] } :=
  ⟨rfl, rfl⟩

/-- C3 amended: the run fails with the `LengthError` exactly when some
generated identifier exceeds the 13-character bound, and since the
identifiers are `gene_<n>` this happens exactly when the 0-based counter
reaches 100,000,000, that is on inputs with more than `10 ^ 8` records. -/
theorem claim3_amended (recs : List FastaRecord) :
    ((∃ st, reformatCore recs = Except.error st) ↔
        ∃ i, i < recs.length ∧ 13 < (geneName i).length) ∧
      ((∃ st, reformatCore recs = Except.error st) ↔ 10 ^ 8 + 1 ≤ recs.length) := by
  have herr : (∃ st, reformatCore recs = Except.error st) ↔ 10 ^ 8 < recs.length := by
    constructor
    · rintro ⟨st, hst⟩
      exact (reformatCore_error_elim recs st hst).1
    · intro h
      exact ⟨_, reformatCore_long recs h⟩
  constructor
  · rw [herr]
    constructor
    · intro h
      exact ⟨10 ^ 8, h, (geneName_length_gt_iff _).mpr (Nat.le_refl _)⟩
    · rintro ⟨i, hi, hgt⟩
      have h2 := (geneName_length_gt_iff i).mp hgt
      omega
  · rw [herr]
    omega

/-- C9: for inputs with at most `10 ^ 8` records every generated
identifier fits the 13-character bound, so the `LengthError` branch is
unreachable and the run succeeds. -/
theorem claim9_no_length_error (recs : List FastaRecord)
    (h : recs.length ≤ 10 ^ 8) :
    (∀ i, i < 10 ^ 8 → (geneName i).length ≤ 13) ∧
      ∃ st, reformatCore recs = Except.ok st :=
  ⟨fun i hi => (geneName_length_le_iff i).mpr hi, ⟨_, reformatCore_ok recs h⟩⟩

theorem claim9_witness :
    wRecs.length ≤ 10 ^ 8 ∧
      ((∀ i, i < 10 ^ 8 → (geneName i).length ≤ 13) ∧
        ∃ st, reformatCore wRecs = Except.ok st) :=
  ⟨by decide, claim9_no_length_error wRecs (by decide)⟩

/-- C5: for every valid input (record count within the ceiling, sequences
made of residue characters, so free of whitespace and of `>`) the run
succeeds and parsing the output FASTA yields exactly as many records as
the input, whose sequences are byte-identical to the input sequences in
the same order, each with an empty description. -/
theorem claim5_round_trip (recs : List FastaRecord) (h1 : recs.length ≤ 10 ^ 8)
    (h2 : ∀ r ∈ recs, ∀ c ∈ r.seq, isPySpace c = false ∧ c ≠ '>') :
    ∃ st, reformatCore recs = Except.ok st ∧
      (parseFasta (fastaLines st.written)).length = recs.length ∧
      (parseFasta (fastaLines st.written)).map (fun r => r.seq) =
        recs.map (fun r => r.seq) ∧
      ∀ r ∈ parseFasta (fastaLines st.written), r.description = [] := by
  have hclean := renameAll_clean 0 recs h2
  have hrt : parseFasta (fastaLines (renameAll 0 recs)) = renameAll 0 recs :=
    parseFasta_fastaLines _ hclean
  refine ⟨_, reformatCore_ok recs h1, ?_, ?_, ?_⟩
  · show (parseFasta (fastaLines (renameAll 0 recs))).length = recs.length
    rw [hrt, renameAll_length]
  · show (parseFasta (fastaLines (renameAll 0 recs))).map (fun r => r.seq) =
      recs.map (fun r => r.seq)
    rw [hrt, renameAll_map_seq]
  · show ∀ r ∈ parseFasta (fastaLines (renameAll 0 recs)), r.description = []
    rw [hrt]
    exact renameAll_description 0 recs

theorem claim5_witness :
    wRecs.length ≤ 10 ^ 8 ∧
      (∀ r ∈ wRecs, ∀ c ∈ r.seq, isPySpace c = false ∧ c ≠ '>') ∧
      ∃ st, reformatCore wRecs = Except.ok st ∧
        (parseFasta (fastaLines st.written)).length = wRecs.length ∧
        (parseFasta (fastaLines st.written)).map (fun r => r.seq) =
          wRecs.map (fun r => r.seq) ∧
        ∀ r ∈ parseFasta (fastaLines st.written), r.description = [] :=
  ⟨by decide, by decide, claim5_round_trip wRecs (by decide) (by decide)⟩

/-- C6: when the input file is absent the run fails with the read error
and nothing is written: both output paths hold no file afterwards (any
pre-existing output was deleted, nothing replaced it) and every other path
is untouched. -/
theorem claim6_missing_input (fs : FS) (ip gn od : String) (h : fs ip = none) :
    (reformat_seq_iq fs ip gn od).2 = some RunError.readErr ∧
      (reformat_seq_iq fs ip gn od).1 (newNamesPath od gn) = none ∧
      (reformat_seq_iq fs ip gn od).1 (conversionPath od gn) = none ∧
      ∀ p, p ≠ newNamesPath od gn → p ≠ conversionPath od gn →
        (reformat_seq_iq fs ip gn od).1 p = fs p := by
  have hfs1 : fsSet (fsSet fs (newNamesPath od gn) none) (conversionPath od gn) none ip
      = none := by
    by_cases e2 : ip = conversionPath od gn
    · rw [e2, fsSet_same]
    · rw [fsSet_other _ _ _ _ e2]
      by_cases e1 : ip = newNamesPath od gn
      · rw [e1, fsSet_same]
      · rw [fsSet_other _ _ _ _ e1, h]
  rw [reformat_eval_none fs ip gn od hfs1]
  refine ⟨rfl, ?_, ?_, ?_⟩
  · show fsSet (fsSet fs (newNamesPath od gn) none) (conversionPath od gn) none
        (newNamesPath od gn) = none
    rw [fsSet_other _ _ _ _ (paths_ne od gn), fsSet_same]
  · show fsSet (fsSet fs (newNamesPath od gn) none) (conversionPath od gn) none
        (conversionPath od gn) = none
    rw [fsSet_same]
  · intro p hp1 hp2
    show fsSet (fsSet fs (newNamesPath od gn) none) (conversionPath od gn) none p = fs p
    rw [fsSet_other _ _ _ _ hp2, fsSet_other _ _ _ _ hp1]

theorem claim6_witness :
    wFsNone "in.fasta" = none ∧
      ((reformat_seq_iq wFsNone "in.fasta" "Zm" "out").2 = some RunError.readErr ∧
        (reformat_seq_iq wFsNone "in.fasta" "Zm" "out").1 (newNamesPath "out" "Zm") =
          none ∧
        (reformat_seq_iq wFsNone "in.fasta" "Zm" "out").1 (conversionPath "out" "Zm") =
          none ∧
        ∀ p, p ≠ newNamesPath "out" "Zm" → p ≠ conversionPath "out" "Zm" →
          (reformat_seq_iq wFsNone "in.fasta" "Zm" "out").1 p = wFsNone p) :=
  ⟨rfl, claim6_missing_input wFsNone "in.fasta" "Zm" "out" rfl⟩

/-- C8: an input that parses to zero records yields a successful run, an
output FASTA with an empty body, and a conversion table holding only the
header row. -/
theorem claim8_zero_records (fs : FS) (ip gn od : String)
    (lines : List (List Char)) (h1 : fs ip = some lines)
    (h2 : parseFasta lines = []) (hip1 : ip ≠ newNamesPath od gn)
    (hip2 : ip ≠ conversionPath od gn) :
    (reformat_seq_iq fs ip gn od).2 = none ∧
      (reformat_seq_iq fs ip gn od).1 (newNamesPath od gn) = some [] ∧
      (reformat_seq_iq fs ip gn od).1 (conversionPath od gn) = some [headerRow] := by
  have hfs1 : fsSet (fsSet fs (newNamesPath od gn) none) (conversionPath od gn) none ip
      = some lines := by
    rw [fsSet_other _ _ _ _ hip2, fsSet_other _ _ _ _ hip1, h1]
  rw [reformat_eval_some fs ip gn od lines hfs1, h2]
  rw [show runLoop startState ([] : List FastaRecord) = Except.ok startState from rfl]
  rw [reformatOutputs_ok]
  refine ⟨rfl, ?_, ?_⟩
  · show fsSet
        (fsSet (fsSet (fsSet fs (newNamesPath od gn) none) (conversionPath od gn) none)
          (newNamesPath od gn) (some (fastaLines startState.written)))
        (conversionPath od gn) (some (tableLines startState.pairs))
        (newNamesPath od gn) = some []
    rw [fsSet_other _ _ _ _ (paths_ne od gn), fsSet_same]
    rfl
  · show fsSet
        (fsSet (fsSet (fsSet fs (newNamesPath od gn) none) (conversionPath od gn) none)
          (newNamesPath od gn) (some (fastaLines startState.written)))
        (conversionPath od gn) (some (tableLines startState.pairs))
        (conversionPath od gn) = some [headerRow]
    rw [fsSet_same]
    rfl

theorem claim8_witness :
    wFsB "in.fasta" = some [] ∧ parseFasta [] = [] ∧
      "in.fasta" ≠ newNamesPath "out" "Zm" ∧
      "in.fasta" ≠ conversionPath "out" "Zm" ∧
      ((reformat_seq_iq wFsB "in.fasta" "Zm" "out").2 = none ∧
        (reformat_seq_iq wFsB "in.fasta" "Zm" "out").1 (newNamesPath "out" "Zm") =
          some [] ∧
        (reformat_seq_iq wFsB "in.fasta" "Zm" "out").1 (conversionPath "out" "Zm") =
          some [headerRow]) :=
  ⟨rfl, rfl, by decide, by decide,
    claim8_zero_records wFsB "in.fasta" "Zm" "out" [] rfl rfl (by decide) (by decide)⟩

/-- C7: both output paths are cleared before anything is written, so the
run behaves exactly as on a file system where the outputs are already
absent, and the resulting output files and outcome depend only on the
input file content: a re-run fully replaces prior outputs with no
accumulation or concatenation. -/
theorem claim7_overwrite (fs fs2 : FS) (ip gn od : String) (h : fs ip = fs2 ip) :
    reformat_seq_iq fs ip gn od =
        reformat_seq_iq
          (fsSet (fsSet fs (newNamesPath od gn) none) (conversionPath od gn) none)
          ip gn od ∧
      (reformat_seq_iq fs ip gn od).1 (newNamesPath od gn) =
        (reformat_seq_iq fs2 ip gn od).1 (newNamesPath od gn) ∧
      (reformat_seq_iq fs ip gn od).1 (conversionPath od gn) =
        (reformat_seq_iq fs2 ip gn od).1 (conversionPath od gn) ∧
      (reformat_seq_iq fs ip gn od).2 = (reformat_seq_iq fs2 ip gn od).2 := by
  have hidem :
      fsSet
        (fsSet
          (fsSet (fsSet fs (newNamesPath od gn) none) (conversionPath od gn) none)
          (newNamesPath od gn) none)
        (conversionPath od gn) none =
      fsSet (fsSet fs (newNamesPath od gn) none) (conversionPath od gn) none := by
    funext q
    by_cases e2 : q = conversionPath od gn
    · rw [e2, fsSet_same, fsSet_same]
    · rw [fsSet_other _ _ _ _ e2, fsSet_other _ _ _ _ e2]
      by_cases e1 : q = newNamesPath od gn
      · rw [e1, fsSet_same, fsSet_same]
      · rw [fsSet_other _ _ _ _ e1, fsSet_other _ _ _ _ e2,
          fsSet_other _ _ _ _ e1]
  refine ⟨?_, ?_⟩
  · simp only [reformat_seq_iq]
    rw [hidem]
  · have hsame :
        fsSet (fsSet fs (newNamesPath od gn) none) (conversionPath od gn) none ip =
        fsSet (fsSet fs2 (newNamesPath od gn) none) (conversionPath od gn) none ip := by
      by_cases e2 : ip = conversionPath od gn
      · rw [e2, fsSet_same, fsSet_same]
      · rw [fsSet_other _ _ _ _ e2, fsSet_other _ _ _ _ e2]
        by_cases e1 : ip = newNamesPath od gn
        · rw [e1, fsSet_same, fsSet_same]
        · rw [fsSet_other _ _ _ _ e1, fsSet_other _ _ _ _ e1, h]
    cases hc : fsSet (fsSet fs (newNamesPath od gn) none) (conversionPath od gn) none ip
      with
    | none =>
      have hc2 : fsSet (fsSet fs2 (newNamesPath od gn) none) (conversionPath od gn) none
          ip = none := hsame.symm.trans hc
      rw [reformat_eval_none fs ip gn od hc, reformat_eval_none fs2 ip gn od hc2]
      refine ⟨?_, ?_, rfl⟩
      · show fsSet (fsSet fs (newNamesPath od gn) none) (conversionPath od gn) none
            (newNamesPath od gn) =
          fsSet (fsSet fs2 (newNamesPath od gn) none) (conversionPath od gn) none
            (newNamesPath od gn)
        rw [fsSet_other _ _ _ _ (paths_ne od gn), fsSet_same,
          fsSet_other _ _ _ _ (paths_ne od gn), fsSet_same]
      · show fsSet (fsSet fs (newNamesPath od gn) none) (conversionPath od gn) none
            (conversionPath od gn) =
          fsSet (fsSet fs2 (newNamesPath od gn) none) (conversionPath od gn) none
            (conversionPath od gn)
        rw [fsSet_same, fsSet_same]
    | some lines =>
      have hc2 : fsSet (fsSet fs2 (newNamesPath od gn) none) (conversionPath od gn) none
          ip = some lines := hsame.symm.trans hc
      rw [reformat_eval_some fs ip gn od lines hc,
        reformat_eval_some fs2 ip gn od lines hc2]
      cases hrun : runLoop startState (parseFasta lines) with
      | error st =>
        rw [reformatOutputs_error, reformatOutputs_error]
        refine ⟨?_, ?_, rfl⟩
        · show fsSet (fsSet (fsSet fs (newNamesPath od gn) none) (conversionPath od gn)
              none) (newNamesPath od gn) (some (fastaLines st.written))
              (newNamesPath od gn) =
            fsSet (fsSet (fsSet fs2 (newNamesPath od gn) none) (conversionPath od gn)
              none) (newNamesPath od gn) (some (fastaLines st.written))
              (newNamesPath od gn)
          rw [fsSet_same, fsSet_same]
        · show fsSet (fsSet (fsSet fs (newNamesPath od gn) none) (conversionPath od gn)
              none) (newNamesPath od gn) (some (fastaLines st.written))
              (conversionPath od gn) =
            fsSet (fsSet (fsSet fs2 (newNamesPath od gn) none) (conversionPath od gn)
              none) (newNamesPath od gn) (some (fastaLines st.written))
              (conversionPath od gn)
          rw [fsSet_other _ _ _ _ (Ne.symm (paths_ne od gn)),
            fsSet_other _ _ _ _ (Ne.symm (paths_ne od gn)), fsSet_same, fsSet_same]
      | ok st =>
        rw [reformatOutputs_ok, reformatOutputs_ok]
        refine ⟨?_, ?_, rfl⟩
        · show fsSet (fsSet (fsSet (fsSet fs (newNamesPath od gn) none)
              (conversionPath od gn) none) (newNamesPath od gn)
              (some (fastaLines st.written))) (conversionPath od gn)
              (some (tableLines st.pairs)) (newNamesPath od gn) =
            fsSet (fsSet (fsSet (fsSet fs2 (newNamesPath od gn) none)
              (conversionPath od gn) none) (newNamesPath od gn)
              (some (fastaLines st.written))) (conversionPath od gn)
              (some (tableLines st.pairs)) (newNamesPath od gn)
          rw [fsSet_other _ _ _ _ (paths_ne od gn),
            fsSet_other _ _ _ _ (paths_ne od gn), fsSet_same, fsSet_same]
        · show fsSet (fsSet (fsSet (fsSet fs (newNamesPath od gn) none)
              (conversionPath od gn) none) (newNamesPath od gn)
              (some (fastaLines st.written))) (conversionPath od gn)
              (some (tableLines st.pairs)) (conversionPath od gn) =
            fsSet (fsSet (fsSet (fsSet fs2 (newNamesPath od gn) none)
              (conversionPath od gn) none) (newNamesPath od gn)
              (some (fastaLines st.written))) (conversionPath od gn)
              (some (tableLines st.pairs)) (conversionPath od gn)
          rw [fsSet_same, fsSet_same]

theorem claim7_witness :
    wFsA "in.fasta" = wFsB "in.fasta" ∧
      (reformat_seq_iq wFsA "in.fasta" "Zm" "out" =
          reformat_seq_iq
            (fsSet (fsSet wFsA (newNamesPath "out" "Zm") none)
              (conversionPath "out" "Zm") none) "in.fasta" "Zm" "out" ∧
        (reformat_seq_iq wFsA "in.fasta" "Zm" "out").1 (newNamesPath "out" "Zm") =
          (reformat_seq_iq wFsB "in.fasta" "Zm" "out").1 (newNamesPath "out" "Zm") ∧
        (reformat_seq_iq wFsA "in.fasta" "Zm" "out").1 (conversionPath "out" "Zm") =
          (reformat_seq_iq wFsB "in.fasta" "Zm" "out").1 (conversionPath "out" "Zm") ∧
        (reformat_seq_iq wFsA "in.fasta" "Zm" "out").2 =
          (reformat_seq_iq wFsB "in.fasta" "Zm" "out").2) :=
  ⟨rfl, claim7_overwrite wFsA wFsB "in.fasta" "Zm" "out" rfl⟩

/-- C4: whenever the run ends with the `LengthError`, the input had more
than `10 ^ 8` records, the loop aborted at the first offending record
(0-based index `10 ^ 8`), and the output FASTA left on disk holds exactly
the renamed records written before that record, not rolled back. -/
theorem claim4_aborted_output (fs : FS) (ip gn od : String) :
    match reformat_seq_iq fs ip gn od with
    | (fs2, some RunError.lengthErr) =>
        ∃ lines, fs ip = some lines ∧
          10 ^ 8 < (parseFasta lines).length ∧
          fs2 (newNamesPath od gn) =
            some (fastaLines (renameAll 0 ((parseFasta lines).take (10 ^ 8))))
    | _ => True := by
  cases hc : fsSet (fsSet fs (newNamesPath od gn) none) (conversionPath od gn) none ip
    with
  | none =>
    rw [reformat_eval_none fs ip gn od hc]
    exact trivial
  | some lines =>
    rw [reformat_eval_some fs ip gn od lines hc]
    cases hrun : runLoop startState (parseFasta lines) with
    | ok st =>
      rw [reformatOutputs_ok]
      exact trivial
    | error st =>
      rw [reformatOutputs_error]
      show ∃ lines2, fs ip = some lines2 ∧
        10 ^ 8 < (parseFasta lines2).length ∧
        fsSet (fsSet (fsSet fs (newNamesPath od gn) none) (conversionPath od gn) none)
          (newNamesPath od gn) (some (fastaLines st.written)) (newNamesPath od gn) =
          some (fastaLines (renameAll 0 ((parseFasta lines2).take (10 ^ 8))))
      have hip2 : ip ≠ conversionPath od gn := by
        intro e
        rw [e, fsSet_same] at hc
        cases hc
      have hip1 : ip ≠ newNamesPath od gn := by
        intro e
        rw [fsSet_other _ _ _ _ hip2, e, fsSet_same] at hc
        cases hc
      have hfs0 : fs ip = some lines := by
        rw [fsSet_other _ _ _ _ hip2, fsSet_other _ _ _ _ hip1] at hc
        exact hc
      obtain ⟨hlen, hstv⟩ := reformatCore_error_elim (parseFasta lines) st hrun
      refine ⟨lines, hfs0, hlen, ?_⟩
      rw [fsSet_same, hstv]

/-- C10: whenever the run ends with the `LengthError`, the conversion
table path holds no file at all (the table is only written after a full
pass, and any pre-existing table was deleted at the start), while the
partial output FASTA does exist on disk. -/
theorem claim10_table_absent (fs : FS) (ip gn od : String) :
    match reformat_seq_iq fs ip gn od with
    | (fs2, some RunError.lengthErr) =>
        fs2 (conversionPath od gn) = none ∧
          ∃ content, fs2 (newNamesPath od gn) = some content
    | _ => True := by
  cases hc : fsSet (fsSet fs (newNamesPath od gn) none) (conversionPath od gn) none ip
    with
  | none =>
    rw [reformat_eval_none fs ip gn od hc]
    exact trivial
  | some lines =>
    rw [reformat_eval_some fs ip gn od lines hc]
    cases hrun : runLoop startState (parseFasta lines) with
    | ok st =>
      rw [reformatOutputs_ok]
      exact trivial
    | error st =>
      rw [reformatOutputs_error]
      show fsSet (fsSet (fsSet fs (newNamesPath od gn) none) (conversionPath od gn) none)
          (newNamesPath od gn) (some (fastaLines st.written)) (conversionPath od gn) =
          none ∧
        ∃ content,
          fsSet (fsSet (fsSet fs (newNamesPath od gn) none) (conversionPath od gn) none)
            (newNamesPath od gn) (some (fastaLines st.written)) (newNamesPath od gn) =
            some content
      constructor
      · rw [fsSet_other _ _ _ _ (Ne.symm (paths_ne od gn)), fsSet_same]
      · exact ⟨fastaLines st.written, fsSet_same _ _ _⟩
